import Mathlib

set_option maxHeartbeats 1000000

/-!
Shallow embedding of the seqdd downloader-orchestration code:

* the non-blocking rate-limit gates `NCBI.ncbi_delay_ready`
  (src/seqdd/downloaders/ncbi.py) and `SRA.sra_delay_ready`
  (src/seqdd/register/sources/sra.py);
* the job-graph builders `NCBI.jobs_from_accessions` and
  `SRA.jobs_from_accessions`;
* the submission loop, directory handling and lifecycle calls of
  `DownloadManager.download_to`, and `check_binary`
  (src/seqdd/utils/download.py).

Python clock readings (`time.time()`) are modelled as rationals, object
references as indices into an allocation-ordered list of job records, and
the filesystem of `download_to` as a list of component paths.
-/

/-- Gates attachable to a job via the `can_start` keyword in the source:
either absent, or one of the two rate-limit gate bound methods. -/
inductive Gate where
  | noGate
  | ncbiDelay
  | sraDelay
deriving DecidableEq, Repr

/-- The payload of a job: `CmdLineJob` carries a command line string,
`FunctionJob` carries the bound method's name and its `func_args`
(rendered as the argument strings). -/
inductive JobKind where
  | cmd (cmdline : String)
  | func (fname : String) (args : List String)
deriving DecidableEq, Repr

/-- One job record, as built by the downloaders: payload, list of parent
references (indices into the allocation-ordered job list), optional
`can_start` gate, and optional explicit `name`. -/
structure JobData where
  kind : JobKind
  parents : List Nat
  gate : Gate
  name : Option String
deriving DecidableEq, Repr

/-- Embedding of `NCBI.ncbi_delay_ready` (ncbi.py lines 28-39).
`locked` is the result of the non-blocking `self.mutex.acquire(blocking=False)`;
`tNow` is the `time.time()` reading used in the elapsed-time comparison and
`tUpd` the (possibly slightly later) `time.time()` reading stored on success;
`lastQ` is `self.last_ncbi_query`.  Returns the boolean result together with
the new value of `self.last_ncbi_query`. -/
def ncbi_delay_ready (locked : Bool) (tNow tUpd lastQ : ℚ) : Bool × ℚ :=
  if locked then
    let ready : Bool := decide (tNow - lastQ > 1)
    (ready, if ready then tUpd else lastQ)
  else
    (false, lastQ)

/-- The value of `self.min_delay` set in `SRA.__init__` (sra.py line 50). -/
def sraMinDelay : ℚ := 1/2

/-- Embedding of `SRA.sra_delay_ready` (sra.py lines 62-77), parameterised by
the instance field `self.min_delay`; same conventions as `ncbi_delay_ready`. -/
def sra_delay_ready (minDelay : ℚ) (locked : Bool) (tNow tUpd lastQ : ℚ) :
    Bool × ℚ :=
  if locked then
    let ready : Bool := decide (tNow - lastQ > minDelay)
    (ready, if ready then tUpd else lastQ)
  else
    (false, lastQ)

/-- C1: when the try-lock is acquired (`locked = true`), each rate-limit gate
returns `true` iff strictly more than the minimum inter-call interval
(1 second for NCBI, 0.5 seconds for SRA) has elapsed since the stored
last-permitted-call timestamp, and the stored timestamp is updated (to the
fresh clock reading) exactly when the gate returns `true`; it is unchanged
when the gate returns `false`. -/
theorem delay_gates_locked_spec (tNow tUpd lastQ : ℚ) :
    ((ncbi_delay_ready true tNow tUpd lastQ).1 = true ↔ tNow - lastQ > 1) ∧
    ((ncbi_delay_ready true tNow tUpd lastQ).1 = true →
      (ncbi_delay_ready true tNow tUpd lastQ).2 = tUpd) ∧
    ((ncbi_delay_ready true tNow tUpd lastQ).1 = false →
      (ncbi_delay_ready true tNow tUpd lastQ).2 = lastQ) ∧
    ((sra_delay_ready sraMinDelay true tNow tUpd lastQ).1 = true ↔
      tNow - lastQ > 1/2) ∧
    ((sra_delay_ready sraMinDelay true tNow tUpd lastQ).1 = true →
      (sra_delay_ready sraMinDelay true tNow tUpd lastQ).2 = tUpd) ∧
    ((sra_delay_ready sraMinDelay true tNow tUpd lastQ).1 = false →
      (sra_delay_ready sraMinDelay true tNow tUpd lastQ).2 = lastQ) := by
  refine ⟨?_, ?_, ?_, ?_, ?_, ?_⟩ <;>
    simp only [ncbi_delay_ready, sra_delay_ready, sraMinDelay] <;>
    by_cases h1 : tNow - lastQ > 1 <;>
    by_cases h2 : tNow - lastQ > (1 : ℚ)/2 <;>
    simp [h1, h2] <;> (intros; linarith)

/-- Witness for C1 at a concrete state: with `tNow = 5`, `tUpd = 6`,
`lastQ = 1` both gates fire and store the fresh reading `6`. -/
theorem delay_gates_locked_spec_w :
    (ncbi_delay_ready true 5 6 1).1 = true ∧
      (ncbi_delay_ready true 5 6 1).2 = 6 ∧
      (sra_delay_ready sraMinDelay true 5 6 1).1 = true ∧
      (sra_delay_ready sraMinDelay true 5 6 1).2 = 6 := by
  have h := delay_gates_locked_spec 5 6 1
  have h1 : (ncbi_delay_ready true 5 6 1).1 = true := h.1.mpr (by norm_num)
  have h2 : (sra_delay_ready sraMinDelay true 5 6 1).1 = true :=
    h.2.2.2.1.mpr (by norm_num)
  exact ⟨h1, h.2.1 h1, h2, h.2.2.2.2.1 h2⟩

/-- C2: when the non-blocking try-lock acquisition fails (`locked = false`),
each gate returns `false` and leaves the stored last-query timestamp
unchanged (the embedding of `acquire(blocking=False)` as an input flag also
records that the call never blocks). -/
theorem delay_gates_unlocked_spec (minDelay tNow tUpd lastQ : ℚ) :
    ncbi_delay_ready false tNow tUpd lastQ = (false, lastQ) ∧
    sra_delay_ready minDelay false tNow tUpd lastQ = (false, lastQ) := by
  constructor <;> rfl

/-- Witness for C2 at a concrete state. -/
theorem delay_gates_unlocked_spec_w :
    ncbi_delay_ready false 7 8 2 = (false, 2) ∧
    sra_delay_ready sraMinDelay false 7 8 2 = (false, 2) :=
  delay_gates_unlocked_spec sraMinDelay 7 8 2

/-- Outcome of `subprocess.run` on the probed argument vector: either the
process completed with a return code, or spawning raised `FileNotFoundError`
(the only exception the source catches). -/
inductive SpawnOutcome where
  | completed (returncode : Int)
  | fileNotFound
deriving DecidableEq, Repr

/-- Embedding of `check_binary` (download.py lines 84-95): it builds the
command string `f'{path_to_bin} --version'`, splits it on single spaces and
hands the argument vector to the ambient process spawner `spawn`; a completed
run yields `returncode == 0`, a `FileNotFoundError` is caught and yields
`false`.  The embedding is a total function: the caught exception is the
`fileNotFound` branch, so no exception escapes. -/
def check_binary (pathToBin : String) (spawn : List String → SpawnOutcome) :
    Bool :=
  match spawn ((pathToBin ++ " --version").splitOn " ") with
  | .completed rc => rc == 0
  | .fileNotFound => false

/-- C10: `check_binary` never raises when the probed executable is absent
(a `FileNotFoundError` from spawning is the `fileNotFound` outcome and yields
`false`), and it returns `true` exactly when running the probed path with the
`--version` argument completes with exit code 0. -/
theorem check_binary_spec (p : String) (spawn : List String → SpawnOutcome) :
    (check_binary p spawn = true ↔
      spawn ((p ++ " --version").splitOn " ") = .completed 0) ∧
    (spawn ((p ++ " --version").splitOn " ") = .fileNotFound →
      check_binary p spawn = false) := by
  unfold check_binary
  cases h : spawn ((p ++ " --version").splitOn " ") with
  | completed rc => simp [h]
  | fileNotFound => simp [h]

/-- Witness for C10: a spawner that completes with exit code 0 makes
`check_binary` answer `true`; one that raises `FileNotFoundError` makes it
answer `false`. -/
theorem check_binary_spec_w :
    check_binary "datasets" (fun _ => .completed 0) = true ∧
    check_binary "missing" (fun _ => .fileNotFound) = false :=
  ⟨(check_binary_spec "datasets" (fun _ => .completed 0)).1.mpr rfl,
   (check_binary_spec "missing" (fun _ => .fileNotFound)).2 rfl⟩

/-- State of the process-wide class attribute `NCBI.ncbi_joib_id` together
with the thread-local views of two threads concurrently running a batch of
`NCBI.jobs_from_accessions`: `id1`/`id2` hold the counter value each thread
has read — the batch identifier it embeds in its job name and
temporary-directory name — before writing back that value plus one. -/
structure RaceState where
  counter : Nat
  id1 : Option Nat
  id2 : Option Nat
deriving DecidableEq, Repr

/-- One atomic sub-step of the unsynchronised read-modify-write
`NCBI.ncbi_joib_id += 1` (ncbi.py lines 49-53): a load of the class
attribute by one of the two threads, or that thread's store of its read
value plus one.  The source holds no lock around these steps (`self.mutex`
guards only `ncbi_delay_ready`), so any interleaving is possible. -/
inductive RaceStep where
  | load1
  | store1
  | load2
  | store2
deriving DecidableEq, Repr

/-- Effect of one interleaved sub-step on the shared counter state. -/
def raceStep (s : RaceState) : RaceStep → RaceState
  | .load1 => { s with id1 := some s.counter }
  | .store1 => { s with counter := s.id1.getD s.counter + 1 }
  | .load2 => { s with id2 := some s.counter }
  | .store2 => { s with counter := s.id2.getD s.counter + 1 }

/-- Run an interleaving of the two threads' sub-steps. -/
def runRace (steps : List RaceStep) (s : RaceState) : RaceState :=
  steps.foldl raceStep s

/-- Counterexample to C6: under the interleaving load₁, load₂, store₁,
store₂ — legal because `NCBI.ncbi_joib_id += 1` is not atomic and no lock is
held — both concurrently created batches read the same identifier 0, so the
batch job names and temporary-directory names collide; the counter ends at 1
after two batch creations. -/
theorem ncbi_job_id_race_cex :
    (runRace [.load1, .load2, .store1, .store2]
        { counter := 0, id1 := none, id2 := none }).id1 = some 0 ∧
    (runRace [.load1, .load2, .store1, .store2]
        { counter := 0, id1 := none, id2 := none }).id2 = some 0 ∧
    (runRace [.load1, .load2, .store1, .store2]
        { counter := 0, id1 := none, id2 := none }).counter = 1 := by
  exact ⟨rfl, rfl, rfl⟩

/-- Batching of the accession list into slices of at most five:
`for idx in range(0, len(accessions), 5)` with `accessions[idx:idx+5]`
(ncbi.py lines 47, 56). -/
def chunk5 (l : List String) : List (List String) :=
  if h : l = [] then [] else l.take 5 :: chunk5 (l.drop 5)
termination_by l.length
decreasing_by
  simp only [List.length_drop]
  have hp : 0 < l.length := List.length_pos.mpr h
  omega

/-- Every batch produced by `chunk5` holds at most five accessions. -/
theorem chunk5_len_le (l : List String) : ∀ c ∈ chunk5 l, c.length ≤ 5 := by
  induction l using chunk5.induct with
  | case1 => simp [chunk5]
  | case2 l hne ih =>
      intro c hc
      rw [chunk5, dif_neg hne] at hc
      rcases List.mem_cons.mp hc with hc | hc
      · subst hc
        simp [List.length_take]
      · exact ih c hc

/-- The batches of `chunk5` concatenate back to the original list. -/
theorem chunk5_flatten (l : List String) : (chunk5 l).flatten = l := by
  induction l using chunk5.induct with
  | case1 => simp [chunk5]
  | case2 l hne ih =>
      rw [chunk5, dif_neg hne]
      simp [ih]

/-- The four jobs one NCBI batch appends to `all_jobs`
(ncbi.py lines 47-72): `jid` is the value of `NCBI.ncbi_joib_id` read for
this batch and `base` the position of the batch's download job in the
allocation-ordered job list; parent references are rendered as positions. -/
def ncbiBatch (bin tmpdir destdir : String) (jid base : Nat)
    (accSlice : List String) : List JobData :=
  let tmp_dir := tmpdir ++ "/ncbi_" ++ toString jid
  let job_name := "ncbi_job_" ++ toString jid
  let download_file := tmp_dir ++ "/" ++ job_name ++ ".zip"
  let unzip_dir := tmp_dir ++ "/" ++ job_name
  [ { kind := .cmd (bin ++ " download genome accession --dehydrated --filename "
        ++ download_file ++ " " ++ String.intercalate " " accSlice),
      parents := [], gate := .ncbiDelay, name := none },
    { kind := .cmd ("unzip " ++ download_file ++ " -d " ++ unzip_dir),
      parents := [base], gate := .noGate, name := none },
    { kind := .cmd (bin ++ " rehydrate --gzip --no-progressbar --directory "
        ++ unzip_dir),
      parents := [base + 1], gate := .ncbiDelay, name := none },
    { kind := .func "clean" [unzip_dir, destdir, tmp_dir],
      parents := [base + 2], gate := .noGate, name := none } ]

/-- Loop of `NCBI.jobs_from_accessions` over the batches: threads the class
counter `NCBI.ncbi_joib_id` (read once per batch, then incremented) and the
position of the next job in `all_jobs`; returns the job list, the batch
identifiers read from the counter, and the final counter value. -/
def ncbiJobsAux (bin tmpdir destdir : String) :
    List (List String) → Nat → Nat → List JobData × List Nat × Nat
  | [], jid, _ => ([], [], jid)
  | c :: cs, jid, base =>
      let rest := ncbiJobsAux bin tmpdir destdir cs (jid + 1) (base + 4)
      (ncbiBatch bin tmpdir destdir jid base c ++ rest.1,
       jid :: rest.2.1, rest.2.2)

/-- Embedding of `NCBI.jobs_from_accessions` (ncbi.py lines 41-74): the
returned `all_jobs` list (parents as positions in that list), together with
the batch identifiers consumed from `NCBI.ncbi_joib_id` and its final value;
`jid` is the counter value when the call starts. -/
def ncbi_jobs_from_accessions (bin tmpdir destdir : String)
    (accessions : List String) (jid : Nat) :
    List JobData × List Nat × Nat :=
  ncbiJobsAux bin tmpdir destdir (chunk5 accessions) jid 0

/-- The job list built by the batching loop has four jobs per batch. -/
theorem ncbiJobsAux_length (bin tmpdir destdir : String) :
    ∀ (cs : List (List String)) (jid base : Nat),
      (ncbiJobsAux bin tmpdir destdir cs jid base).1.length = 4 * cs.length := by
  intro cs
  induction cs with
  | nil => intro jid base; rfl
  | cons c cs ih =>
      intro jid base
      simp only [ncbiJobsAux, List.length_append, ih, ncbiBatch,
        List.length_cons, List.length_nil]
      omega

/-- Every parent reference produced by the batching loop points strictly
below the referring job's own position (offset by the starting position
`base`): the job graph is acyclic and parents are listed before children. -/
theorem ncbiJobsAux_acyclic (bin tmpdir destdir : String) :
    ∀ (cs : List (List String)) (jid base i : Nat) (d : JobData),
      (ncbiJobsAux bin tmpdir destdir cs jid base).1[i]? = some d →
      ∀ p ∈ d.parents, p < base + i := by
  intro cs
  induction cs with
  | nil => intro jid base i d hd; simp [ncbiJobsAux] at hd
  | cons c cs ih =>
      intro jid base i d hd p hp
      rw [ncbiJobsAux] at hd
      match i with
      | 0 =>
          simp [ncbiBatch] at hd
          rw [← hd] at hp
          simp at hp
      | 1 =>
          simp [ncbiBatch] at hd
          rw [← hd] at hp
          simp at hp
          omega
      | 2 =>
          simp [ncbiBatch] at hd
          rw [← hd] at hp
          simp at hp
          omega
      | 3 =>
          simp [ncbiBatch] at hd
          rw [← hd] at hp
          simp at hp
          omega
      | (n + 4) =>
          have hlen : (ncbiBatch bin tmpdir destdir jid base c).length = 4 := by
            simp [ncbiBatch]
          rw [List.getElem?_append_right (by omega)] at hd
          rw [hlen] at hd
          have := ih (jid + 1) (base + 4) (n + 4 - 4) d hd p hp
          omega

/-- Within the batching loop, batch `b` contributes exactly the four jobs of
`ncbiBatch` at counter value `jid + b` and positions `base + 4b`,…,
`base + 4b + 3`. -/
theorem ncbiJobsAux_batch (bin tmpdir destdir : String) :
    ∀ (cs : List (List String)) (jid base b : Nat), b < cs.length →
      ∃ c, cs[b]? = some c ∧
        ∀ k, k < 4 →
          (ncbiJobsAux bin tmpdir destdir cs jid base).1[4 * b + k]? =
            (ncbiBatch bin tmpdir destdir (jid + b) (base + 4 * b) c)[k]? := by
  intro cs
  induction cs with
  | nil => intro jid base b hb; simp at hb
  | cons c cs ih =>
      intro jid base b hb
      match b with
      | 0 =>
          refine ⟨c, by simp, ?_⟩
          intro k hk
          rw [ncbiJobsAux]
          have hlen : (ncbiBatch bin tmpdir destdir jid base c).length = 4 := by
            simp [ncbiBatch]
          rw [List.getElem?_append_left (by omega)]
          simp
      | b' + 1 =>
          have hb' : b' < cs.length := by simp at hb; omega
          obtain ⟨cc, hcc, hk⟩ := ih (jid + 1) (base + 4) b' hb'
          refine ⟨cc, by simpa using hcc, ?_⟩
          intro k hkk
          rw [ncbiJobsAux]
          have hlen : (ncbiBatch bin tmpdir destdir jid base c).length = 4 := by
            simp [ncbiBatch]
          rw [List.getElem?_append_right (by omega), hlen]
          have harith : 4 * (b' + 1) + k - 4 = 4 * b' + k := by omega
          rw [harith, hk k hkk]
          have h1 : jid + 1 + b' = jid + (b' + 1) := by omega
          have h2 : base + 4 + 4 * b' = base + 4 * (b' + 1) := by omega
          rw [h1, h2]

/-- C4: for every accession list, `NCBI.jobs_from_accessions` returns, per
batch of at most 5 accessions, a linear four-job chain that is acyclic
(every parent reference points strictly below the referring job): a download
command job with no parents, an unzip command job whose parents are exactly
the download job, a rehydrate command job whose parents are exactly the
unzip job, and a reorganize callable job whose parents are exactly the
rehydrate job; the download and rehydrate jobs carry the `ncbi_delay_ready`
gate and the unzip and reorganize jobs carry no gate. -/
theorem ncbi_jobs_structure (bin tmpdir destdir : String)
    (accessions : List String) (jid : Nat) :
    (ncbi_jobs_from_accessions bin tmpdir destdir accessions jid).1.length
        = 4 * (chunk5 accessions).length ∧
    (chunk5 accessions).flatten = accessions ∧
    (∀ c ∈ chunk5 accessions, c.length ≤ 5) ∧
    (∀ (i : Nat) (d : JobData),
      (ncbi_jobs_from_accessions bin tmpdir destdir accessions jid).1[i]?
          = some d → ∀ p ∈ d.parents, p < i) ∧
    (∀ b, b < (chunk5 accessions).length →
      ∃ dl uz rh rg,
        (ncbi_jobs_from_accessions bin tmpdir destdir accessions jid).1[4 * b]?
            = some dl ∧
        (ncbi_jobs_from_accessions bin tmpdir destdir accessions
            jid).1[4 * b + 1]? = some uz ∧
        (ncbi_jobs_from_accessions bin tmpdir destdir accessions
            jid).1[4 * b + 2]? = some rh ∧
        (ncbi_jobs_from_accessions bin tmpdir destdir accessions
            jid).1[4 * b + 3]? = some rg ∧
        dl.parents = [] ∧ dl.gate = Gate.ncbiDelay ∧
          (∃ s, dl.kind = JobKind.cmd s) ∧
        uz.parents = [4 * b] ∧ uz.gate = Gate.noGate ∧
          (∃ s, uz.kind = JobKind.cmd s) ∧
        rh.parents = [4 * b + 1] ∧ rh.gate = Gate.ncbiDelay ∧
          (∃ s, rh.kind = JobKind.cmd s) ∧
        rg.parents = [4 * b + 2] ∧ rg.gate = Gate.noGate ∧
          (∃ f a, rg.kind = JobKind.func f a)) := by
  refine ⟨ncbiJobsAux_length bin tmpdir destdir (chunk5 accessions) jid 0,
    chunk5_flatten accessions, chunk5_len_le accessions, ?_, ?_⟩
  · intro i d hd p hp
    have h := ncbiJobsAux_acyclic bin tmpdir destdir (chunk5 accessions)
      jid 0 i d hd p hp
    omega
  · intro b hb
    obtain ⟨c, _, hk⟩ := ncbiJobsAux_batch bin tmpdir destdir
      (chunk5 accessions) jid 0 b hb
    have h0 := hk 0 (by omega)
    have h1 := hk 1 (by omega)
    have h2 := hk 2 (by omega)
    have h3 := hk 3 (by omega)
    simp only [ncbiBatch, Nat.zero_add, Nat.add_zero,
      List.getElem?_cons_zero, List.getElem?_cons_succ] at h0 h1 h2 h3
    exact ⟨_, _, _, _, h0, h1, h2, h3,
      rfl, rfl, ⟨_, rfl⟩, rfl, rfl, ⟨_, rfl⟩, rfl, rfl, ⟨_, rfl⟩,
      rfl, rfl, ⟨_, _, rfl⟩⟩

/-- Witness for C4: seven accessions give two batches; the second batch
(`b = 1`) has the stated shape. -/
theorem ncbi_jobs_structure_w :
    1 < (chunk5 ["a", "b", "c", "d", "e", "f", "g"]).length ∧
    (∃ dl uz rh rg,
      (ncbi_jobs_from_accessions "bin" "tmp" "dest"
          ["a", "b", "c", "d", "e", "f", "g"] 0).1[4 * 1]? = some dl ∧
      (ncbi_jobs_from_accessions "bin" "tmp" "dest"
          ["a", "b", "c", "d", "e", "f", "g"] 0).1[4 * 1 + 1]? = some uz ∧
      (ncbi_jobs_from_accessions "bin" "tmp" "dest"
          ["a", "b", "c", "d", "e", "f", "g"] 0).1[4 * 1 + 2]? = some rh ∧
      (ncbi_jobs_from_accessions "bin" "tmp" "dest"
          ["a", "b", "c", "d", "e", "f", "g"] 0).1[4 * 1 + 3]? = some rg ∧
      dl.parents = [] ∧ dl.gate = Gate.ncbiDelay ∧
        (∃ s, dl.kind = JobKind.cmd s) ∧
      uz.parents = [4 * 1] ∧ uz.gate = Gate.noGate ∧
        (∃ s, uz.kind = JobKind.cmd s) ∧
      rh.parents = [4 * 1 + 1] ∧ rh.gate = Gate.ncbiDelay ∧
        (∃ s, rh.kind = JobKind.cmd s) ∧
      rg.parents = [4 * 1 + 2] ∧ rg.gate = Gate.noGate ∧
        (∃ f a, rg.kind = JobKind.func f a)) := by
  have hlen : 1 < (chunk5 ["a", "b", "c", "d", "e", "f", "g"]).length := by
    rw [chunk5, chunk5, chunk5] <;> simp
  exact ⟨hlen,
    (ncbi_jobs_structure "bin" "tmp" "dest"
      ["a", "b", "c", "d", "e", "f", "g"] 0).2.2.2.2 1 hlen⟩

/-- The batching loop reads consecutive counter values `jid, jid+1, …` (one
per batch) and leaves the class counter at `jid + number of batches`. -/
theorem ncbiJobsAux_ids (bin tmpdir destdir : String) :
    ∀ (cs : List (List String)) (jid base : Nat),
      (ncbiJobsAux bin tmpdir destdir cs jid base).2.1
          = List.range' jid cs.length ∧
      (ncbiJobsAux bin tmpdir destdir cs jid base).2.2 = jid + cs.length := by
  intro cs
  induction cs with
  | nil => intro jid base; exact ⟨rfl, rfl⟩
  | cons c cs ih =>
      intro jid base
      constructor
      · simp only [ncbiJobsAux, List.length_cons, List.range'_succ]
        rw [(ih (jid + 1) (base + 4)).1]
      · simp only [ncbiJobsAux, List.length_cons]
        rw [(ih (jid + 1) (base + 4)).2]
        omega

/-- C6 (amended): in sequential use the class counter `NCBI.ncbi_joib_id`
hands out consecutive identifiers: a call starting at counter value `jid`
assigns its batches the identifiers `jid, jid+1, …`, leaves the counter at
`jid +` (number of batches), and the identifiers of any two consecutive
calls, taken together, are strictly increasing — hence pairwise distinct, so
the derived batch job names and temporary-directory names cannot collide.
(The unsynchronised `+= 1` makes none of this thread-safe: see the
counterexample `ncbi_job_id_race_cex`.) -/
theorem ncbi_job_id_sequential (bin1 tmp1 dest1 bin2 tmp2 dest2 : String)
    (accs1 accs2 : List String) (jid : Nat) :
    (ncbi_jobs_from_accessions bin1 tmp1 dest1 accs1 jid).2.1 ++
        (ncbi_jobs_from_accessions bin2 tmp2 dest2 accs2
          (ncbi_jobs_from_accessions bin1 tmp1 dest1 accs1 jid).2.2).2.1
      = List.range' jid
          ((chunk5 accs1).length + (chunk5 accs2).length) ∧
    ((ncbi_jobs_from_accessions bin1 tmp1 dest1 accs1 jid).2.1 ++
        (ncbi_jobs_from_accessions bin2 tmp2 dest2 accs2
          (ncbi_jobs_from_accessions bin1 tmp1 dest1 accs1 jid).2.2).2.1
      ).Pairwise (· < ·) ∧
    (ncbi_jobs_from_accessions bin1 tmp1 dest1 accs1 jid).2.2
      = jid + (chunk5 accs1).length := by
  have ha := ncbiJobsAux_ids bin1 tmp1 dest1 (chunk5 accs1) jid 0
  have heq : (ncbi_jobs_from_accessions bin1 tmp1 dest1 accs1 jid).2.2
      = jid + (chunk5 accs1).length := ha.2
  have hb := ncbiJobsAux_ids bin2 tmp2 dest2 (chunk5 accs2)
    (jid + (chunk5 accs1).length) 0
  have hconcat :
      (ncbi_jobs_from_accessions bin1 tmp1 dest1 accs1 jid).2.1 ++
        (ncbi_jobs_from_accessions bin2 tmp2 dest2 accs2
          (ncbi_jobs_from_accessions bin1 tmp1 dest1 accs1 jid).2.2).2.1
      = List.range' jid
          ((chunk5 accs1).length + (chunk5 accs2).length) := by
    show (ncbiJobsAux bin1 tmp1 dest1 (chunk5 accs1) jid 0).2.1 ++ _ = _
    rw [ha.1, heq]
    show _ ++ (ncbiJobsAux bin2 tmp2 dest2 (chunk5 accs2)
      (jid + (chunk5 accs1).length) 0).2.1 = _
    rw [hb.1]
    have h := List.range'_append jid (chunk5 accs1).length
      (chunk5 accs2).length 1
    simp only [one_mul] at h
    rw [h, Nat.add_comm ((chunk5 accs2).length) ((chunk5 accs1).length)]
  refine ⟨hconcat, ?_, heq⟩
  rw [hconcat]
  exact List.pairwise_lt_range' jid _ 1 Nat.one_pos

/-- Witness for C6 (amended): six accessions then one accession, starting at
counter 0: identifiers `[0, 1]` then `[2]`, strictly increasing. -/
theorem ncbi_job_id_sequential_w :
    (ncbi_jobs_from_accessions "b" "t" "d" ["a1", "a2", "a3", "a4", "a5", "a6"]
        0).2.1 ++
      (ncbi_jobs_from_accessions "b" "t" "d" ["a7"]
        (ncbi_jobs_from_accessions "b" "t" "d"
          ["a1", "a2", "a3", "a4", "a5", "a6"] 0).2.2).2.1
      = List.range'
          0 ((chunk5 ["a1", "a2", "a3", "a4", "a5", "a6"]).length +
             (chunk5 ["a7"]).length) :=
  (ncbi_job_id_sequential "b" "t" "d" "b" "t" "d"
    ["a1", "a2", "a3", "a4", "a5", "a6"] ["a7"] 0).1

/-- In-place update of the job record at position `i`: Python mutates the
object that every holder of the reference shares, and positions in the
allocation-ordered record list are the references. -/
def modifyAt : List JobData → Nat → (JobData → JobData) → List JobData
  | [], _, _ => []
  | d :: t, 0, f => f d :: t
  | d :: t, n + 1, f => d :: modifyAt t n f

/-- `job.parents.append(p)` performed on the record at position `i`. -/
def appendParent (h : List JobData) (i p : Nat) : List JobData :=
  modifyAt h i (fun d => { d with parents := d.parents ++ [p] })

theorem modifyAt_length (l : List JobData) :
    ∀ (i : Nat) (f : JobData → JobData), (modifyAt l i f).length = l.length := by
  induction l with
  | nil => intro i f; rfl
  | cons d t ih =>
      intro i f
      match i with
      | 0 => rfl
      | n + 1 => simp [modifyAt, ih]

theorem modifyAt_append (l1 l2 : List JobData) :
    ∀ (k : Nat) (f : JobData → JobData),
      modifyAt (l1 ++ l2) (l1.length + k) f = l1 ++ modifyAt l2 k f := by
  induction l1 with
  | nil => intro k f; simp
  | cons d t ih =>
      intro k f
      have hidx : (d :: t).length + k = (t.length + k) + 1 := by
        simp [List.length_cons]; omega
      rw [hidx]
      simp only [List.cons_append, modifyAt]
      exact congrArg (d :: .) (ih k f)


/-- Structural rendering of Python's `str.startswith`: character-list
prefix test (kept executable so that concrete accessions evaluate). -/
def strStartsWith (s pre : String) : Bool := pre.data.isPrefixOf s.data

/-- Per-accession construction of `SRA.jobs_from_accessions`
(sra.py lines 107-151) for an accession that is not yet downloaded: allocate
the prefetch job (when the accession prefix is recognised), the fasterq-dump
jobs (`jobs_from_SRR` for SRR, `jobs_from_SRXP` for SRX/SRP), append the
prefetch job to each fasterq-dump job's parent list after construction, then
allocate the clean job with the fasterq-dump jobs as parents.  Returns the
grown record list and the references appended to `jobs` (with `none` for the
`None` prefetch of an unrecognised prefix). -/
def sraAcc (pf fq tmpdir datadir acc : String) (h : List JobData) :
    List JobData × List (Option Nat) :=
  let job_name := "sra_" ++ acc
  let acc_dir := tmpdir ++ "/" ++ acc
  let cleanRec : JobData :=
    { kind := JobKind.func "move_and_clean" [acc_dir, datadir],
      parents := [], gate := Gate.noGate, name := some (job_name ++ "_clean") }
  if strStartsWith acc "SRR" then
    let pid := h.length
    let recP : JobData :=
      { kind := JobKind.cmd (pf ++ " --max-size u --output-directory "
          ++ tmpdir ++ " " ++ acc),
        parents := [], gate := Gate.sraDelay,
        name := some (job_name ++ "_prefetch") }
    let h1 := h ++ [recP]
    let f1 := h1.length
    let recF : JobData :=
      { kind := JobKind.cmd (fq ++ " --split-3 --skip-technical --outdir "
          ++ acc_dir ++ " " ++ acc_dir),
        parents := [], gate := Gate.sraDelay,
        name := some (job_name ++ "_fasterqdump") }
    let h2 := h1 ++ [recF]
    let f2 := h2.length
    let recG : JobData :=
      { kind := JobKind.cmd ("gzip " ++ acc_dir ++ "/*.fastq"),
        parents := [f1], gate := Gate.noGate,
        name := some (job_name ++ "_compress") }
    let h3 := h2 ++ [recG]
    let h4 := appendParent h3 f1 pid
    let h5 := appendParent h4 f2 pid
    let c := h5.length
    let h6 := h5 ++ [{ cleanRec with parents := [f1, f2] }]
    (h6, [some pid, some f1, some f2, some c])
  else if strStartsWith acc "SRX" || strStartsWith acc "SRP" then
    let pid := h.length
    let recP : JobData :=
      { kind := JobKind.cmd (pf ++ " --max-size u --output-directory "
          ++ acc_dir ++ " " ++ acc),
        parents := [], gate := Gate.sraDelay,
        name := some (job_name ++ "_prefetch") }
    let h1 := h ++ [recP]
    let s := h1.length
    let recS : JobData :=
      { kind := JobKind.func "run_fasterqdump_from_SRXP" [acc_dir],
        parents := [], gate := Gate.noGate,
        name := some (job_name ++ "_fasterqdump+gzip") }
    let h2 := h1 ++ [recS]
    let h3 := appendParent h2 s pid
    let c := h3.length
    let h4 := h3 ++ [{ cleanRec with parents := [s] }]
    (h4, [some pid, some s, some c])
  else
    let c := h.length
    let h1 := h ++ [cleanRec]
    (h1, [none, some c])

/-- The accession loop of `SRA.jobs_from_accessions` (sra.py lines 104-153):
accessions already present in the data directory (`existsInData`, the
`path.exists(path.join(datadir, acc))` probe) are skipped; the others grow
the record list through `sraAcc` and contribute their references to the
returned `jobs` list in order. -/
def sraJobsAux (pf fq tmpdir datadir : String) (existsInData : String → Bool) :
    List String → List JobData → List JobData × List (Option Nat)
  | [], h => (h, [])
  | acc :: rest, h =>
      if existsInData acc then
        sraJobsAux pf fq tmpdir datadir existsInData rest h
      else
        let r := sraAcc pf fq tmpdir datadir acc h
        let r2 := sraJobsAux pf fq tmpdir datadir existsInData rest r.1
        (r2.1, r.2 ++ r2.2)

/-- Embedding of `SRA.jobs_from_accessions` (sra.py lines 93-153): returns
the allocation-ordered record list and the `jobs` list of references. -/
def sra_jobs_from_accessions (pf fq tmpdir datadir : String)
    (existsInData : String → Bool) (accessions : List String) :
    List JobData × List (Option Nat) :=
  sraJobsAux pf fq tmpdir datadir existsInData accessions []

/-- The fully-linked two-phase description of one accession's block of jobs:
the same records as `sraAcc`, but written directly with their final parent
sets (the prefetch reference appears last in each fasterq-dump job's parent
list, and the clean job's parents are exactly the fasterq-dump jobs).
`base` is the position of the block's first record. -/
def sraLinkedBlock (pf fq tmpdir datadir acc : String) (base : Nat) :
    List JobData × List (Option Nat) :=
  let job_name := "sra_" ++ acc
  let acc_dir := tmpdir ++ "/" ++ acc
  let cleanRec : JobData :=
    { kind := JobKind.func "move_and_clean" [acc_dir, datadir],
      parents := [], gate := Gate.noGate, name := some (job_name ++ "_clean") }
  if strStartsWith acc "SRR" then
    let recP : JobData :=
      { kind := JobKind.cmd (pf ++ " --max-size u --output-directory "
          ++ tmpdir ++ " " ++ acc),
        parents := [], gate := Gate.sraDelay,
        name := some (job_name ++ "_prefetch") }
    let recF : JobData :=
      { kind := JobKind.cmd (fq ++ " --split-3 --skip-technical --outdir "
          ++ acc_dir ++ " " ++ acc_dir),
        parents := [base], gate := Gate.sraDelay,
        name := some (job_name ++ "_fasterqdump") }
    let recG : JobData :=
      { kind := JobKind.cmd ("gzip " ++ acc_dir ++ "/*.fastq"),
        parents := [base + 1, base], gate := Gate.noGate,
        name := some (job_name ++ "_compress") }
    ([recP, recF, recG, { cleanRec with parents := [base + 1, base + 2] }],
     [some base, some (base + 1), some (base + 2), some (base + 3)])
  else if strStartsWith acc "SRX" || strStartsWith acc "SRP" then
    let recP : JobData :=
      { kind := JobKind.cmd (pf ++ " --max-size u --output-directory "
          ++ acc_dir ++ " " ++ acc),
        parents := [], gate := Gate.sraDelay,
        name := some (job_name ++ "_prefetch") }
    let recS : JobData :=
      { kind := JobKind.func "run_fasterqdump_from_SRXP" [acc_dir],
        parents := [base], gate := Gate.noGate,
        name := some (job_name ++ "_fasterqdump+gzip") }
    ([recP, recS, { cleanRec with parents := [base + 1] }],
     [some base, some (base + 1), some (base + 2)])
  else
    ([cleanRec], [none, some base])

/-- The fully-linked two-phase description of the whole accession loop. -/
def sraLinked (pf fq tmpdir datadir : String) (existsInData : String → Bool) :
    List String → Nat → List JobData × List (Option Nat)
  | [], _ => ([], [])
  | acc :: rest, base =>
      if existsInData acc then
        sraLinked pf fq tmpdir datadir existsInData rest base
      else
        let b := sraLinkedBlock pf fq tmpdir datadir acc base
        let r := sraLinked pf fq tmpdir datadir existsInData rest
          (base + b.1.length)
        (b.1 ++ r.1, b.2 ++ r.2)

/-- One processed accession grows the record list by exactly its
fully-linked block: the two parent-list mutations of the source act only on
the freshly allocated records. -/
theorem sraAcc_eq (pf fq tmpdir datadir acc : String) (h : List JobData) :
    sraAcc pf fq tmpdir datadir acc h
      = (h ++ (sraLinkedBlock pf fq tmpdir datadir acc h.length).1,
         (sraLinkedBlock pf fq tmpdir datadir acc h.length).2) := by
  by_cases hr : strStartsWith acc "SRR"
  · simp only [sraAcc, sraLinkedBlock, hr, if_true, appendParent,
      List.append_assoc, List.singleton_append, List.length_append,
      List.length_cons, List.length_nil]
    rw [show h.length + (1 + (1 + 1)) = h.length + 3 by omega]
    rw [show (h.length + 1 : Nat) = h.length + 1 by rfl]
    rw [modifyAt_append h _ 1, modifyAt_append h _ 2]
    simp [modifyAt]
  · by_cases hx : (strStartsWith acc "SRX" || strStartsWith acc "SRP")
    · simp only [sraAcc, sraLinkedBlock, hr, hx, if_true, if_false,
        Bool.false_eq_true, appendParent, List.append_assoc,
        List.singleton_append, List.length_append, List.length_cons,
        List.length_nil]
      rw [modifyAt_append h _ 1]
      simp [modifyAt]
    · simp [sraAcc, sraLinkedBlock, hr, hx]

/-- The whole accession loop equals the fully-linked two-phase
construction, appended after the initial record list. -/
theorem sraJobsAux_eq (pf fq tmpdir datadir : String)
    (existsInData : String → Bool) :
    ∀ (accs : List String) (h : List JobData),
      sraJobsAux pf fq tmpdir datadir existsInData accs h
        = (h ++ (sraLinked pf fq tmpdir datadir existsInData accs h.length).1,
           (sraLinked pf fq tmpdir datadir existsInData accs h.length).2) := by
  intro accs
  induction accs with
  | nil => intro h; simp [sraJobsAux, sraLinked]
  | cons acc rest ih =>
      intro h
      by_cases he : existsInData acc
      · simp [sraJobsAux, sraLinked, he, ih h]
      · simp only [sraJobsAux, sraLinked, he, Bool.false_eq_true, if_false]
        rw [sraAcc_eq]
        rw [ih (h ++ (sraLinkedBlock pf fq tmpdir datadir acc h.length).1)]
        simp [List.length_append, List.append_assoc]

/-- C7: in `SRA.jobs_from_accessions` every parent link is established
before the job list is returned: the mutation-based construction equals the
fully-linked two-phase description `sraLinked`, in whose blocks each
fasterq-dump job carries the accession's prefetch reference appended after
construction (last in its parent list) and the clean job is constructed with
its parent set exactly the accession's fasterq-dump jobs. -/
theorem sra_parent_links (pf fq tmpdir datadir : String)
    (existsInData : String → Bool) (accessions : List String) :
    sra_jobs_from_accessions pf fq tmpdir datadir existsInData accessions
      = sraLinked pf fq tmpdir datadir existsInData accessions 0 ∧
    (∀ (acc : String) (base : Nat), strStartsWith acc "SRR" = true →
      ∃ P F G C,
        (sraLinkedBlock pf fq tmpdir datadir acc base).1 = [P, F, G, C] ∧
        (sraLinkedBlock pf fq tmpdir datadir acc base).2
          = [some base, some (base + 1), some (base + 2), some (base + 3)] ∧
        F.parents = [base] ∧ G.parents = [base + 1, base] ∧
        F.parents.getLast? = some base ∧ G.parents.getLast? = some base ∧
        C.parents = [base + 1, base + 2]) ∧
    (∀ (acc : String) (base : Nat), strStartsWith acc "SRR" = false →
      (strStartsWith acc "SRX" || strStartsWith acc "SRP") = true →
      ∃ P S C,
        (sraLinkedBlock pf fq tmpdir datadir acc base).1 = [P, S, C] ∧
        (sraLinkedBlock pf fq tmpdir datadir acc base).2
          = [some base, some (base + 1), some (base + 2)] ∧
        S.parents = [base] ∧ S.parents.getLast? = some base ∧
        C.parents = [base + 1]) := by
  refine ⟨?_, ?_, ?_⟩
  · have h := sraJobsAux_eq pf fq tmpdir datadir existsInData accessions []
    simpa [sra_jobs_from_accessions] using h
  · intro acc base hr
    simp only [sraLinkedBlock, hr, if_true]
    exact ⟨_, _, _, _, rfl, trivial, rfl, rfl, rfl, rfl, rfl⟩
  · intro acc base hr hx
    simp only [sraLinkedBlock, hr, hx, if_true, if_false, Bool.false_eq_true]
    exact ⟨_, _, _, rfl, trivial, rfl, rfl, rfl⟩

/-- Witness for C7: concrete evaluation at one SRR and one SRX accession. -/
theorem sra_parent_links_w :
    sra_jobs_from_accessions "p" "f" "t" "d" (fun _ => false) ["SRR9"]
      = sraLinked "p" "f" "t" "d" (fun _ => false) ["SRR9"] 0 ∧
    (∃ P F G C,
      (sraLinkedBlock "p" "f" "t" "d" "SRR9" 0).1 = [P, F, G, C] ∧
      (sraLinkedBlock "p" "f" "t" "d" "SRR9" 0).2
        = [some 0, some 1, some 2, some 3] ∧
      F.parents = [0] ∧ G.parents = [1, 0] ∧
      F.parents.getLast? = some 0 ∧ G.parents.getLast? = some 0 ∧
      C.parents = [1, 2]) := by
  have h := sra_parent_links "p" "f" "t" "d" (fun _ => false) ["SRR9"]
  refine ⟨h.1, ?_⟩
  have h2 := h.2.1 "SRR9" 0 (by decide)
  simpa using h2

/-- The accession prefixes `SRA.jobs_from_accessions` recognises
(sra.py lines 126, 132). -/
def sraKnownAcc (acc : String) : Bool :=
  strStartsWith acc "SRR" || strStartsWith acc "SRX" || strStartsWith acc "SRP"

/-- When every processed accession has a recognised prefix, every reference
in the fully-linked job list is an actual job. -/
theorem sraLinked_all_isSome (pf fq tmpdir datadir : String)
    (existsInData : String → Bool) :
    ∀ (accs : List String) (base : Nat),
      (∀ acc ∈ accs, existsInData acc = false → sraKnownAcc acc = true) →
      ∀ x ∈ (sraLinked pf fq tmpdir datadir existsInData accs base).2,
        x.isSome = true := by
  intro accs
  induction accs with
  | nil => intro base hv x hx; simp [sraLinked] at hx
  | cons acc rest ih =>
      intro base hv x hx
      by_cases he : existsInData acc
      · rw [sraLinked, if_pos he] at hx
        exact ih base (fun a ha hfa => hv a (List.mem_cons_of_mem acc ha) hfa) x hx
      · rw [sraLinked, if_neg he] at hx
        rcases List.mem_append.mp hx with hx | hx
        · have hval : sraKnownAcc acc = true :=
            hv acc (List.mem_cons_self acc rest) (Bool.eq_false_iff.mpr he)
          by_cases hr : strStartsWith acc "SRR"
          · rw [sraLinkedBlock] at hx
            simp only [hr, if_true] at hx
            simp only [List.mem_cons, List.not_mem_nil, or_false] at hx
            rcases hx with rfl | rfl | rfl | rfl <;> rfl
          · have hxp : (strStartsWith acc "SRX" || strStartsWith acc "SRP")
                = true := by
              rw [sraKnownAcc] at hval
              rcases Bool.or_eq_true_iff.mp hval with hval | hval
              · rcases Bool.or_eq_true_iff.mp hval with hval | hval
                · exact absurd hval hr
                · simp [hval]
              · simp [hval]
            rw [sraLinkedBlock] at hx
            simp only [hr, hxp, if_true, if_false, Bool.false_eq_true] at hx
            simp only [List.mem_cons, List.not_mem_nil, or_false] at hx
            rcases hx with rfl | rfl | rfl <;> rfl
        · exact ih (base + (sraLinkedBlock pf fq tmpdir datadir acc base).1.length)
            (fun a ha hfa => hv a (List.mem_cons_of_mem acc ha) hfa) x hx

/-- A processed accession with an unrecognised prefix contributes a `None`
reference (in place of its prefetch job) and a clean job with an empty
parent set to the fully-linked job list. -/
theorem sraLinked_unknown (pf fq tmpdir datadir : String)
    (existsInData : String → Bool) :
    ∀ (accs : List String) (base : Nat) (acc : String), acc ∈ accs →
      existsInData acc = false → sraKnownAcc acc = false →
      none ∈ (sraLinked pf fq tmpdir datadir existsInData accs base).2 ∧
      ∃ i, some i ∈ (sraLinked pf fq tmpdir datadir existsInData accs base).2 ∧
        base ≤ i ∧
        ∃ d, (sraLinked pf fq tmpdir datadir existsInData accs base).1[i - base]?
            = some d ∧
          d.parents = [] ∧ d.name = some ("sra_" ++ acc ++ "_clean") := by
  intro accs
  induction accs with
  | nil => intro base acc hmem; simp at hmem
  | cons a rest ih =>
      intro base acc hmem hex hun
      rcases List.mem_cons.mp hmem with rfl | hmem
      · rw [sraLinked, if_neg (by simp [hex])]
        have hr : strStartsWith acc "SRR" = false := by
          rcases Bool.or_eq_false_iff.mp hun with ⟨h1, _⟩
          exact (Bool.or_eq_false_iff.mp h1).1
        have hxp : (strStartsWith acc "SRX" || strStartsWith acc "SRP")
            = false := by
          rcases Bool.or_eq_false_iff.mp hun with ⟨h1, h2⟩
          simp [(Bool.or_eq_false_iff.mp h1).2, h2]
        rw [sraLinkedBlock]
        simp only [hr, hxp, if_false, Bool.false_eq_true]
        have hz : base - base = 0 := by omega
        refine ⟨by simp, base, by simp, le_refl base, ?_⟩
        exact ⟨{ kind := JobKind.func "move_and_clean" [tmpdir ++ "/" ++ acc, datadir], parents := [], gate := Gate.noGate, name := some ("sra_" ++ acc ++ "_clean") }, by rw [hz, List.cons_append, List.getElem?_cons_zero], rfl, rfl⟩
      · by_cases he : existsInData a
        · rw [sraLinked, if_pos he]
          exact ih base acc hmem hex hun
        · rw [sraLinked, if_neg he]
          obtain ⟨hn, i, hi, hbi, d, hd, hdp, hdn⟩ :=
            ih (base + (sraLinkedBlock pf fq tmpdir datadir a base).1.length)
              acc hmem hex hun
          refine ⟨List.mem_append.mpr (Or.inr hn), i,
            List.mem_append.mpr (Or.inr hi), by omega, d, ?_, hdp, hdn⟩
          rw [List.getElem?_append_right (by omega)]
          have harith : i - base -
              (sraLinkedBlock pf fq tmpdir datadir a base).1.length
              = i - (base + (sraLinkedBlock pf fq tmpdir datadir a base).1.length)
            := by omega
          rw [harith]
          exact hd

/-- C8: if every processed accession (not already present in the data
directory) starts with SRR, SRX or SRP, every element of the returned `jobs`
list is an actual job; for a processed accession with none of these
prefixes, the list contains a `None` entry in place of a prefetch job
together with a clean job (named for that accession) whose parent set is
empty. -/
theorem sra_jobs_prefix_safety (pf fq tmpdir datadir : String)
    (existsInData : String → Bool) (accessions : List String) :
    ((∀ acc ∈ accessions, existsInData acc = false → sraKnownAcc acc = true) →
      ∀ x ∈ (sra_jobs_from_accessions pf fq tmpdir datadir existsInData
          accessions).2, x.isSome = true) ∧
    (∀ acc ∈ accessions, existsInData acc = false → sraKnownAcc acc = false →
      none ∈ (sra_jobs_from_accessions pf fq tmpdir datadir existsInData
          accessions).2 ∧
      ∃ i, some i ∈ (sra_jobs_from_accessions pf fq tmpdir datadir
          existsInData accessions).2 ∧
        ∃ d, (sra_jobs_from_accessions pf fq tmpdir datadir existsInData
            accessions).1[i]? = some d ∧
          d.parents = [] ∧ d.name = some ("sra_" ++ acc ++ "_clean")) := by
  have heq := sraJobsAux_eq pf fq tmpdir datadir existsInData accessions []
  have h1 : (sra_jobs_from_accessions pf fq tmpdir datadir existsInData
      accessions).1
      = (sraLinked pf fq tmpdir datadir existsInData accessions 0).1 := by
    rw [sra_jobs_from_accessions, heq]
    simp
  have h2 : (sra_jobs_from_accessions pf fq tmpdir datadir existsInData
      accessions).2
      = (sraLinked pf fq tmpdir datadir existsInData accessions 0).2 := by
    rw [sra_jobs_from_accessions, heq]
    simp
  constructor
  · intro hv x hx
    rw [h2] at hx
    exact sraLinked_all_isSome pf fq tmpdir datadir existsInData accessions
      0 hv x hx
  · intro acc hm hex hun
    obtain ⟨hn, i, hi, _, d, hd, hdp, hdn⟩ :=
      sraLinked_unknown pf fq tmpdir datadir existsInData accessions
        0 acc hm hex hun
    refine ⟨by rw [h2]; exact hn, i, by rw [h2]; exact hi, d, ?_, hdp, hdn⟩
    rw [h1]
    have hz : i - 0 = i := by omega
    rw [hz] at hd
    exact hd

/-- Witness for C8: the single recognised accession SRR7 yields only actual
jobs; the unrecognised accession XY yields a `None` entry and a clean job
with an empty parent set. -/
theorem sra_jobs_prefix_safety_w :
    ((sra_jobs_from_accessions "p" "f" "t" "d" (fun _ => false)
        ["SRR7"]).2.all Option.isSome = true) ∧
    (none ∈ (sra_jobs_from_accessions "p" "f" "t" "d" (fun _ => false)
        ["XY"]).2 ∧
      ∃ i, some i ∈ (sra_jobs_from_accessions "p" "f" "t" "d" (fun _ => false)
          ["XY"]).2 ∧
        ∃ d, (sra_jobs_from_accessions "p" "f" "t" "d" (fun _ => false)
            ["XY"]).1[i]? = some d ∧
          d.parents = [] ∧ d.name = some ("sra_" ++ "XY" ++ "_clean")) := by
  constructor
  · have h := (sra_jobs_prefix_safety "p" "f" "t" "d" (fun _ => false)
      ["SRR7"]).1 (by intro acc hacc _; rcases List.mem_singleton.mp hacc with rfl; decide)
    exact List.all_eq_true.mpr (fun x hx => h x hx)
  · exact (sra_jobs_prefix_safety "p" "f" "t" "d" (fun _ => false)
      ["XY"]).2 "XY" (List.mem_singleton.mpr rfl) rfl (by decide)

/-- One pass of the inner `for source in jobs` loop of
`DownloadManager.download_to` (download.py lines 66-70): the state pairs
each source's job list with its cursor `idxs[source]`; a source whose
cursor is still inside its list submits the job at the cursor and advances
the cursor, decrementing `total_jobs` (tracked by `remainingJobs`). -/
def roundPass {α : Type} : List (List α × Nat) → List α × List (List α × Nat)
  | [] => ([], [])
  | (l, i) :: rest =>
      let r := roundPass rest
      if h : i < l.length then (l[i] :: r.1, (l, i + 1) :: r.2)
      else (r.1, (l, i) :: r.2)

/-- The live value of `total_jobs` (download.py lines 64, 70): the number of
jobs not yet submitted. -/
def remainingJobs {α : Type} (st : List (List α × Nat)) : Nat :=
  (st.map (fun p => p.1.length - p.2)).sum

theorem roundPass_remaining {α : Type} :
    ∀ st : List (List α × Nat),
      remainingJobs (roundPass st).2 + (roundPass st).1.length
        = remainingJobs st := by
  intro st
  induction st with
  | nil => rfl
  | cons p rest ih =>
      obtain ⟨l, i⟩ := p
      by_cases h : i < l.length
      · simp only [roundPass, dif_pos h, remainingJobs, List.map_cons,
          List.sum_cons, List.length_cons] at ih ⊢
        omega
      · simp only [roundPass, dif_neg h, remainingJobs, List.map_cons,
          List.sum_cons] at ih ⊢
        omega

theorem roundPass_progress {α : Type} :
    ∀ st : List (List α × Nat), remainingJobs st ≠ 0 →
      (roundPass st).1 ≠ [] := by
  intro st
  induction st with
  | nil => intro hr; exact absurd rfl hr
  | cons p rest ih =>
      obtain ⟨l, i⟩ := p
      intro hr
      by_cases h : i < l.length
      · simp [roundPass, dif_pos h]
      · simp only [roundPass, dif_neg h]
        apply ih
        simp only [remainingJobs, List.map_cons, List.sum_cons] at hr ⊢
        omega

/-- The outer `while total_jobs > 0` submission loop of
`DownloadManager.download_to` (download.py lines 63-70), returning the jobs
in submission order.  Totality of this definition is the loop's termination
argument: each pass submits at least one job while `total_jobs > 0`. -/
def submitLoop {α : Type} (st : List (List α × Nat)) : List α :=
  if remainingJobs st = 0 then []
  else (roundPass st).1 ++ submitLoop (roundPass st).2
termination_by remainingJobs st
decreasing_by
  rename_i hne
  have h1 := roundPass_remaining st
  have h2 := roundPass_progress st hne
  have h3 : 0 < (roundPass st).1.length := List.length_pos.mpr h2
  omega

/-- Specification-side round robin: the heads of the still-nonempty source
lists, in source order (one job from each source in turn per round). -/
def rrHeads {α : Type} (ls : List (List α)) : List α :=
  ls.filterMap List.head?

/-- Specification-side round robin: the source lists after one round. -/
def rrTails {α : Type} (ls : List (List α)) : List (List α) :=
  ls.map List.tail

/-- Total number of jobs left in the source lists. -/
def sumLens {α : Type} (ls : List (List α)) : Nat :=
  (ls.map List.length).sum

theorem rrHeads_tails_sum {α : Type} :
    ∀ ls : List (List α),
      sumLens (rrTails ls) + (rrHeads ls).length = sumLens ls := by
  intro ls
  induction ls with
  | nil => rfl
  | cons l rest ih =>
      cases l with
      | nil =>
          simp only [rrHeads, rrTails, sumLens, List.map_cons, List.sum_cons,
            List.filterMap_cons, List.head?, List.tail] at ih ⊢
          omega
      | cons a t =>
          simp only [rrHeads, rrTails, sumLens, List.map_cons, List.sum_cons,
            List.filterMap_cons, List.head?, List.tail, List.length_cons] at ih ⊢
          omega

theorem rrHeads_progress {α : Type} :
    ∀ ls : List (List α), sumLens ls ≠ 0 → (rrHeads ls) ≠ [] := by
  intro ls
  induction ls with
  | nil => intro hs; exact absurd rfl hs
  | cons l rest ih =>
      intro hs
      cases l with
      | nil =>
          have hs2 : sumLens rest ≠ 0 := by
            simp only [sumLens, List.map_cons, List.sum_cons,
              List.length_nil] at hs
            simp only [sumLens]
            omega
          have hgoal : rrHeads ([] :: rest) = rrHeads rest := by
            simp [rrHeads]
          rw [hgoal]
          exact ih hs2
      | cons a t =>
          simp [rrHeads, List.filterMap_cons, List.head?]

/-- Strict round-robin interleaving of the source lists: one round takes the
head of every nonempty list, then recurse on the tails. -/
def rrSpec {α : Type} (ls : List (List α)) : List α :=
  if sumLens ls = 0 then []
  else rrHeads ls ++ rrSpec (rrTails ls)
termination_by sumLens ls
decreasing_by
  rename_i hne
  have h1 := rrHeads_tails_sum ls
  have h2 := rrHeads_progress ls hne
  have h3 : 0 < (rrHeads ls).length := List.length_pos.mpr h2
  omega

/-- The per-source suffixes of jobs not yet submitted. -/
def cursorSuffixes {α : Type} (st : List (List α × Nat)) : List (List α) :=
  st.map (fun p => p.1.drop p.2)

theorem remainingJobs_eq_sumLens {α : Type} (st : List (List α × Nat)) :
    remainingJobs st = sumLens (cursorSuffixes st) := by
  induction st with
  | nil => rfl
  | cons p rest ih =>
      simp only [remainingJobs, sumLens, cursorSuffixes, List.map_cons,
        List.sum_cons, List.length_drop] at ih ⊢
      omega

theorem roundPass_heads {α : Type} :
    ∀ st : List (List α × Nat),
      (roundPass st).1 = rrHeads (cursorSuffixes st) := by
  intro st
  induction st with
  | nil => rfl
  | cons p rest ih =>
      obtain ⟨l, i⟩ := p
      simp only [cursorSuffixes, rrHeads] at ih
      by_cases h : i < l.length
      · have hdrop : l.drop i = l[i] :: l.drop (i + 1) :=
          List.drop_eq_getElem_cons h
        simp only [roundPass, dif_pos h, cursorSuffixes, List.map_cons,
          rrHeads, List.filterMap_cons, hdrop, List.head?]
        rw [ih]
      · have hdrop : l.drop i = [] :=
          List.drop_eq_nil_of_le (by omega)
        simp only [roundPass, dif_neg h, cursorSuffixes, List.map_cons,
          rrHeads, List.filterMap_cons, hdrop, List.head?]
        exact ih

theorem roundPass_tails {α : Type} :
    ∀ st : List (List α × Nat),
      cursorSuffixes (roundPass st).2 = rrTails (cursorSuffixes st) := by
  intro st
  induction st with
  | nil => rfl
  | cons p rest ih =>
      obtain ⟨l, i⟩ := p
      simp only [cursorSuffixes, rrTails] at ih
      by_cases h : i < l.length
      · have htail : List.tail (l.drop i) = l.drop (i + 1) :=
          List.tail_drop l i
        simp only [roundPass, dif_pos h, cursorSuffixes, rrTails,
          List.map_cons, htail]
        rw [ih]
      · have hdrop : l.drop i = [] :=
          List.drop_eq_nil_of_le (by omega)
        simp only [roundPass, dif_neg h, cursorSuffixes, rrTails,
          List.map_cons, hdrop, List.tail]
        rw [ih]

/-- The source's cursor-based submission loop computes exactly the strict
round-robin interleaving of the per-source suffixes. -/
theorem submitLoop_eq_rrSpec {α : Type} :
    ∀ st : List (List α × Nat), submitLoop st = rrSpec (cursorSuffixes st) := by
  intro st
  induction st using submitLoop.induct with
  | case1 st h =>
      rw [submitLoop, if_pos h, rrSpec,
        if_pos (by rw [← remainingJobs_eq_sumLens]; exact h)]
  | case2 st h ih =>
      rw [submitLoop, if_neg h, rrSpec,
        if_neg (by rw [← remainingJobs_eq_sumLens]; exact h)]
      rw [roundPass_heads, ih, roundPass_tails]

theorem flatten_perm_heads_tails {α : Type} :
    ∀ ls : List (List α),
      ls.flatten.Perm (rrHeads ls ++ (rrTails ls).flatten) := by
  intro ls
  induction ls with
  | nil => exact List.Perm.refl _
  | cons l rest ih =>
      cases l with
      | nil =>
          simp only [List.flatten_cons, List.nil_append, rrHeads, rrTails,
            List.filterMap_cons, List.head?, List.map_cons, List.tail]
          simpa [rrHeads, rrTails] using ih
      | cons a t =>
          simp only [List.flatten_cons, List.cons_append, rrHeads, rrTails,
            List.filterMap_cons, List.head?, List.map_cons, List.tail]
          refine List.Perm.cons a ?_
          have ihu : rest.flatten.Perm
              (List.filterMap List.head? rest
                ++ (List.map List.tail rest).flatten) := by
            simpa [rrHeads, rrTails] using ih
          have h1 : (t ++ rest.flatten).Perm
              (t ++ (List.filterMap List.head? rest
                ++ (List.map List.tail rest).flatten)) :=
            List.Perm.append_left t ihu
          have h2 : (t ++ (List.filterMap List.head? rest
              ++ (List.map List.tail rest).flatten)).Perm
              (List.filterMap List.head? rest
                ++ (t ++ (List.map List.tail rest).flatten)) := by
            rw [← List.append_assoc, ← List.append_assoc]
            exact List.Perm.append_right _ List.perm_append_comm
          exact h1.trans h2

/-- The round-robin interleaving is a permutation of all the jobs. -/
theorem rrSpec_perm {α : Type} :
    ∀ ls : List (List α), (rrSpec ls).Perm ls.flatten := by
  intro ls
  induction ls using rrSpec.induct with
  | case1 ls h =>
      rw [rrSpec, if_pos h]
      have hlen : ls.flatten.length = 0 := by
        rw [List.length_flatten]
        simpa [sumLens] using h
      rw [List.eq_nil_of_length_eq_zero hlen]
  | case2 ls h ih =>
      rw [rrSpec, if_neg h]
      have h1 : (rrHeads ls ++ rrSpec (rrTails ls)).Perm
          (rrHeads ls ++ (rrTails ls).flatten) :=
        List.Perm.append_left _ ih
      exact h1.trans (flatten_perm_heads_tails ls).symm

/-- Round robin preserves each source's internal order: every source list is
a subsequence of the interleaving. -/
theorem rrSpec_sublist {α : Type} :
    ∀ (ls : List (List α)) (l : List α), l ∈ ls → l.Sublist (rrSpec ls) := by
  intro ls
  induction ls using rrSpec.induct with
  | case1 ls h =>
      intro l hl
      rw [rrSpec, if_pos h]
      have hz : l.length = 0 := by
        have hmem : l.length ∈ ls.map List.length := List.mem_map_of_mem _ hl
        have hsum : (ls.map List.length).sum = 0 := by simpa [sumLens] using h
        revert hmem hsum
        generalize ls.map List.length = ns
        intro hmem hsum
        induction ns with
        | nil => simp at hmem
        | cons a t ihn =>
            simp only [List.sum_cons] at hsum
            rcases List.mem_cons.mp hmem with heq | hmem2
            · omega
            · exact ihn hmem2 (by omega)
      rw [List.eq_nil_of_length_eq_zero hz]
  | case2 ls h ih =>
      intro l hl
      rw [rrSpec, if_neg h]
      cases l with
      | nil => exact List.nil_sublist _
      | cons a t =>
          have ha : a ∈ rrHeads ls :=
            List.mem_filterMap.mpr ⟨a :: t, hl, rfl⟩
          have ht : t ∈ rrTails ls :=
            List.mem_map.mpr ⟨a :: t, hl, rfl⟩
          have hts : t.Sublist (rrSpec (rrTails ls)) := ih t ht
          obtain ⟨u, v, huv⟩ := List.append_of_mem ha
          rw [huv, List.append_assoc, List.cons_append]
          have h1 : t.Sublist (v ++ rrSpec (rrTails ls)) :=
            hts.trans (List.sublist_append_right v _)
          have h2 : (a :: t).Sublist (a :: (v ++ rrSpec (rrTails ls))) :=
            List.Sublist.cons₂ a h1
          exact h2.trans (List.sublist_append_right u _)

/-- C3: the submission loop of `DownloadManager.download_to` terminates (the
loop body is the total function `submitLoop`, well-founded on the live
`total_jobs` counter) and, starting from all cursors at 0, submits exactly
the strict round-robin interleaving of the per-source job lists: one job
from each source in turn per round; the submitted sequence is a permutation
of all generated jobs (each submitted exactly once) and preserves each
source's internal list order as a subsequence. -/
theorem download_submit_round_robin {α : Type} (jobLists : List (List α)) :
    submitLoop (jobLists.map (fun l => (l, 0))) = rrSpec jobLists ∧
    (submitLoop (jobLists.map (fun l => (l, 0)))).Perm jobLists.flatten ∧
    (∀ l ∈ jobLists,
      l.Sublist (submitLoop (jobLists.map (fun l => (l, 0))))) := by
  have hsuf : cursorSuffixes (jobLists.map (fun l => (l, 0))) = jobLists := by
    simp only [cursorSuffixes, List.map_map]
    have hc : ∀ l ∈ jobLists,
        ((fun p => List.drop p.2 p.1) ∘ fun l => (l, (0 : Nat))) l = id l := by
      intro l _
      simp
    rw [List.map_congr_left hc, List.map_id]
  have he : submitLoop (jobLists.map (fun l => (l, 0))) = rrSpec jobLists := by
    rw [submitLoop_eq_rrSpec, hsuf]
  refine ⟨he, ?_, ?_⟩
  · rw [he]
    exact rrSpec_perm jobLists
  · intro l hl
    rw [he]
    exact rrSpec_sublist jobLists l hl

/-- Witness for C3 at three concrete sources. -/
theorem download_submit_round_robin_w :
    submitLoop ([[1, 2], [3], [4, 5, 6]].map (fun l => (l, 0)))
        = rrSpec [[1, 2], [3], [4, 5, 6]] ∧
    (submitLoop ([[1, 2], [3], [4, 5, 6]].map (fun l => (l, 0)))).Perm
        ([[1, 2], [3], [4, 5, 6]].flatten) ∧
    [1, 2].Sublist
        (submitLoop ([[1, 2], [3], [4, 5, 6]].map (fun l => (l, 0)))) := by
  have h := download_submit_round_robin [[1, 2], [3], [4, 5, 6]]
  exact ⟨h.1, h.2.1, h.2.2 [1, 2] (by simp)⟩

/-- Observable events of one `DownloadManager.download_to` run, in program
order (download.py lines 36-78): directory preparation, `JobManager`
construction, `start()`, each `add_job(...)`, each `remaining_jobs()` poll
(with the value it returned), `stop()` and `join()`. -/
inductive DlEvent where
  | prepDirs
  | mkManager
  | start
  | addJob (j : Nat)
  | poll (v : Nat)
  | stop
  | join
deriving DecidableEq, Repr

/-- The `while manager.remaining_jobs() > 0: time.sleep(1)` loop
(download.py lines 73-74), driven by the successive values the ambient
`JobManager` returns from `remaining_jobs()`: the loop re-polls while the
value is positive and exits on the first non-positive value; if the supplied
value list is exhausted while still positive the run does not get past the
loop (`none`). -/
def pollEvents : List Nat → Option (List DlEvent)
  | [] => none
  | v :: rest =>
      if v > 0 then (pollEvents rest).map (fun pe => DlEvent.poll v :: pe)
      else some [DlEvent.poll v]

/-- Embedding of the statement order of `DownloadManager.download_to`
(download.py lines 36-78) as an event trace: directories are prepared, the
`JobManager` is constructed and started, the interleaved submission loop
adds every job, the completion poll loop runs, then `stop()` and `join()`.
The job lists stand for the per-source `jobs_from_accessions` results. -/
def download_to_trace (jobLists : List (List Nat)) (polls : List Nat) :
    Option (List DlEvent) :=
  (pollEvents polls).map (fun pe =>
    DlEvent.prepDirs :: DlEvent.mkManager :: DlEvent.start ::
      ((submitLoop (jobLists.map (fun l => (l, 0)))).map DlEvent.addJob
        ++ pe ++ [DlEvent.stop, DlEvent.join]))

theorem pollEvents_shape :
    ∀ (polls : List Nat) (pe : List DlEvent), pollEvents polls = some pe →
      ∃ vs : List Nat, (∀ v ∈ vs, 0 < v) ∧
        pe = vs.map DlEvent.poll ++ [DlEvent.poll 0] := by
  intro polls
  induction polls with
  | nil => intro pe hpe; simp [pollEvents] at hpe
  | cons v rest ih =>
      intro pe hpe
      by_cases hv : v > 0
      · rw [pollEvents, if_pos hv] at hpe
        rcases Option.map_eq_some'.mp hpe with ⟨pe', hpe', rfl⟩
        obtain ⟨vs, hvs, rfl⟩ := ih pe' hpe'
        refine ⟨v :: vs, ?_, by simp⟩
        intro u hu
        rcases List.mem_cons.mp hu with rfl | hu
        · exact hv
        · exact hvs u hu
      · rw [pollEvents, if_neg hv] at hpe
        have hv0 : v = 0 := by omega
        subst hv0
        refine ⟨[], by simp, ?_⟩
        simpa using hpe.symm

/-- C5: in every completed run of `DownloadManager.download_to` the engine
lifecycle events occur in the order `start()`, then all `add_job()` calls,
then the `remaining_jobs()` polls; every poll before the last returns a
positive count, `stop()` happens only immediately after a poll has returned
0, and `join()` is called only after `stop()`. -/
theorem download_lifecycle_order (jobLists : List (List Nat))
    (polls : List Nat) (tr : List DlEvent) :
    download_to_trace jobLists polls = some tr →
    ∃ vs : List Nat, (∀ v ∈ vs, 0 < v) ∧
      tr = DlEvent.prepDirs :: DlEvent.mkManager :: DlEvent.start ::
        ((submitLoop (jobLists.map (fun l => (l, 0)))).map DlEvent.addJob
          ++ vs.map DlEvent.poll ++ [DlEvent.poll 0]
          ++ [DlEvent.stop, DlEvent.join]) := by
  intro htr
  rcases Option.map_eq_some'.mp htr with ⟨pe, hpe, rfl⟩
  obtain ⟨vs, hvs, rfl⟩ := pollEvents_shape polls pe hpe
  refine ⟨vs, hvs, ?_⟩
  simp [List.append_assoc]

/-- Witness for C5: two one-job sources and the poll readings 2, 0. -/
theorem download_lifecycle_order_w :
    ∃ vs : List Nat, (∀ v ∈ vs, 0 < v) ∧
      (DlEvent.prepDirs :: DlEvent.mkManager :: DlEvent.start ::
          DlEvent.addJob 10 :: DlEvent.addJob 20 :: DlEvent.poll 2 ::
          DlEvent.poll 0 :: [DlEvent.stop, DlEvent.join])
        = DlEvent.prepDirs :: DlEvent.mkManager :: DlEvent.start ::
          ((submitLoop ([[10], [20]].map (fun l => (l, 0)))).map DlEvent.addJob
            ++ vs.map DlEvent.poll ++ [DlEvent.poll 0]
            ++ [DlEvent.stop, DlEvent.join]) := by
  apply download_lifecycle_order [[10], [20]] [2, 0]
  rw [download_to_trace]
  rw [show pollEvents [2, 0] = some [DlEvent.poll 2, DlEvent.poll 0] by rfl]
  rw [Option.map_some']
  have hsub : submitLoop ([[10], [20]].map (fun l => (l, 0))) = [10, 20] := by
    rw [submitLoop]
    rw [if_neg (by decide)]
    rw [show roundPass ([[10], [20]].map (fun l => (l, 0)))
      = ([10, 20], [([10], 1), ([20], 1)]) by rfl]
    rw [submitLoop, if_pos (by decide)]
    rfl
  rw [hsub]
  rfl

/-- Filesystem model for the directory phase of `download_to`: the set of
existing paths, each a list of components.  A path lies in the subtree of
`dir` when `dir` is a component-prefix of it (the directory itself
included). -/
def rmtreeFS (dir : List String) (fs : List (List String)) :
    List (List String) :=
  fs.filter (fun p => !(dir.isPrefixOf p))

/-- `makedirs`: the directory exists afterwards; with `exist_ok=True` an
existing directory is left as is (the same model covers the plain
`makedirs(logdir)` of the source, which only runs when `logdir` no longer
exists). -/
def makedirsFS (dir : List String) (fs : List (List String)) :
    List (List String) :=
  if dir ∈ fs then fs else fs ++ [dir]

/-- The directory phase of `DownloadManager.download_to`
(download.py lines 36-40): `makedirs(datadir, exist_ok=True)`; then, if the
log directory exists, `rmtree(logdir)`; then `makedirs(logdir)`. -/
def download_to_dirs (datadir logdir : List String)
    (fs : List (List String)) : List (List String) :=
  let fs1 := makedirsFS datadir fs
  let fs2 := if logdir ∈ fs1 then rmtreeFS logdir fs1 else fs1
  makedirsFS logdir fs2

/-- A concrete pre-state: the data directory contains the log directory,
which holds a stale log file. -/
def fsNested : List (List String) :=
  [["data"], ["data", "logs"], ["data", "logs", "old.log"]]

/-- Counterexample to C9 as stated: with `datadir = data` and
`logdir = data/logs`, the file `data/logs/old.log` is existing content of
the data directory, yet `download_to` deletes it — the data directory's
contents are not left unchanged when the two directories overlap. -/
theorem download_dirs_overlap_cex :
    (["data"] : List String).isPrefixOf ["data", "logs", "old.log"] = true ∧
    ["data", "logs", "old.log"] ∈ fsNested ∧
    ["data", "logs", "old.log"] ∉
      download_to_dirs ["data"] ["data", "logs"] fsNested := by
  refine ⟨by decide, by decide, by decide⟩

theorem mem_makedirsFS (d p : List String) (fs : List (List String)) :
    p ∈ makedirsFS d fs ↔ p ∈ fs ∨ p = d := by
  unfold makedirsFS
  by_cases h : d ∈ fs
  · rw [if_pos h]
    constructor
    · exact fun hp => Or.inl hp
    · rintro (hp | rfl)
      · exact hp
      · exact h
  · rw [if_neg h]
    simp

theorem mem_rmtreeFS (d p : List String) (fs : List (List String)) :
    p ∈ rmtreeFS d fs ↔ p ∈ fs ∧ ¬ d <+: p := by
  unfold rmtreeFS
  rw [List.mem_filter]
  simp [Bool.eq_false_iff, List.isPrefixOf_iff_prefix]

/-- C9 (amended): provided neither directory lies inside the other,
`download_to` removes a pre-existing log directory's subtree and recreates
the log directory empty before the `JobManager` is constructed, while the
data directory exists afterwards, every pre-existing path in the data
directory's subtree is preserved, and nothing is created beyond the two
directories themselves.  (When the directories overlap the claim fails:
see `download_dirs_overlap_cex`.) -/
theorem download_dirs_frame (datadir logdir : List String)
    (fs : List (List String))
    (hdl : ¬ datadir <+: logdir) (hld : ¬ logdir <+: datadir) :
    logdir ∈ download_to_dirs datadir logdir fs ∧
    (logdir ∈ fs → ∀ p, logdir <+: p → p ≠ logdir →
      p ∉ download_to_dirs datadir logdir fs) ∧
    datadir ∈ download_to_dirs datadir logdir fs ∧
    (∀ p ∈ fs, datadir <+: p → p ∈ download_to_dirs datadir logdir fs) ∧
    (∀ p ∈ download_to_dirs datadir logdir fs,
      p ∈ fs ∨ p = datadir ∨ p = logdir) ∧
    (∀ (jobLists : List (List Nat)) (polls : List Nat) (tr : List DlEvent),
      download_to_trace jobLists polls = some tr →
      tr.take 2 = [DlEvent.prepDirs, DlEvent.mkManager]) := by
  have hF2sub : ∀ p, p ∈ (if logdir ∈ makedirsFS datadir fs
      then rmtreeFS logdir (makedirsFS datadir fs)
      else makedirsFS datadir fs) → p ∈ makedirsFS datadir fs := by
    intro p hp
    by_cases hc : logdir ∈ makedirsFS datadir fs
    · rw [if_pos hc] at hp
      exact ((mem_rmtreeFS logdir p _).mp hp).1
    · rwa [if_neg hc] at hp
  refine ⟨?_, ?_, ?_, ?_, ?_, ?_⟩
  · exact (mem_makedirsFS logdir logdir _).mpr (Or.inr rfl)
  · intro hin p hpfx hne hp
    have hin1 : logdir ∈ makedirsFS datadir fs :=
      (mem_makedirsFS datadir logdir fs).mpr (Or.inl hin)
    rcases (mem_makedirsFS logdir p _).mp hp with hp2 | rfl
    · rw [if_pos hin1] at hp2
      exact ((mem_rmtreeFS logdir p _).mp hp2).2 hpfx
    · exact hne rfl
  · have hd1 : datadir ∈ makedirsFS datadir fs :=
      (mem_makedirsFS datadir datadir fs).mpr (Or.inr rfl)
    refine (mem_makedirsFS logdir datadir _).mpr (Or.inl ?_)
    by_cases hc : logdir ∈ makedirsFS datadir fs
    · rw [if_pos hc]
      exact (mem_rmtreeFS logdir datadir _).mpr ⟨hd1, hld⟩
    · rwa [if_neg hc]
  · intro p hp hpfx
    have hp1 : p ∈ makedirsFS datadir fs :=
      (mem_makedirsFS datadir p fs).mpr (Or.inl hp)
    have hnl : ¬ logdir <+: p := by
      intro hlp
      rcases List.prefix_or_prefix_of_prefix hpfx hlp with hc | hc
      · exact hdl hc
      · exact hld hc
    refine (mem_makedirsFS logdir p _).mpr (Or.inl ?_)
    by_cases hc : logdir ∈ makedirsFS datadir fs
    · rw [if_pos hc]
      exact (mem_rmtreeFS logdir p _).mpr ⟨hp1, hnl⟩
    · rwa [if_neg hc]
  · intro p hp
    rcases (mem_makedirsFS logdir p _).mp hp with hp2 | rfl
    · have hp1 := hF2sub p hp2
      rcases (mem_makedirsFS datadir p fs).mp hp1 with hp0 | rfl
      · exact Or.inl hp0
      · exact Or.inr (Or.inl rfl)
    · exact Or.inr (Or.inr rfl)
  · intro jobLists polls tr htr
    rcases Option.map_eq_some'.mp htr with ⟨pe, _, rfl⟩
    rfl

/-- Witness for C9 (amended) with disjoint directories `data` and `logs`:
the stale `logs/old.log` is removed, `logs` is recreated, and the data file
`data/x.fa` survives. -/
theorem download_dirs_frame_w :
    ["logs"] ∈ download_to_dirs ["data"] ["logs"]
      [["data"], ["data", "x.fa"], ["logs"], ["logs", "old.log"]] ∧
    ["logs", "old.log"] ∉ download_to_dirs ["data"] ["logs"]
      [["data"], ["data", "x.fa"], ["logs"], ["logs", "old.log"]] ∧
    ["data", "x.fa"] ∈ download_to_dirs ["data"] ["logs"]
      [["data"], ["data", "x.fa"], ["logs"], ["logs", "old.log"]] := by
  have h := download_dirs_frame ["data"] ["logs"]
    [["data"], ["data", "x.fa"], ["logs"], ["logs", "old.log"]]
    (by intro hc; rcases hc with ⟨t, ht⟩; simp at ht)
    (by intro hc; rcases hc with ⟨t, ht⟩; simp at ht)
  refine ⟨h.1, ?_, ?_⟩
  · exact h.2.1 (by decide) ["logs", "old.log"] ⟨["old.log"], rfl⟩ (by decide)
  · exact h.2.2.2.1 ["data", "x.fa"] (by decide) ⟨["x.fa"], rfl⟩
